import Mathlib

/-!
Verification development for the tachyonfx effect-core.

The Rust sources embedded here are:
  src/shader.rs          (default Shader::process, reset, reverse)
  src/cell_filter.rs     (CellFilter, CellPredicate)
  src/buffer_renderer.rs (blit_buffer_region, ClipRegion)
  src/fx/temporary.rs    (TemporaryEffect)
  src/fx/dissolve.rs     (Dissolve)

Types owned by the external ratatui framework (Rect, Position, Margin,
Cell, Buffer, Color, Style) are modelled directly after their ratatui
semantics, with u16 coordinates modelled as Nat.  Repository modules whose
sources are not present (EffectTimer, SimpleRng, CellIterator) are
modelled from the specification; each such definition carries a doc
comment starting with "Modelled from the spec:".

Rust panics are modelled by Option/Except results: none (or .error)
marks an execution that panics.
-/

namespace Tachyonfx

/-- Model of ratatui Position: a pair of u16 coordinates, modelled as Nat. -/
structure Position where
  x : Nat
  y : Nat
deriving DecidableEq

/-- Model of ratatui Margin: horizontal and vertical margins (u16). -/
structure Margin where
  horizontal : Nat
  vertical : Nat
deriving DecidableEq

/-- Model of ratatui Rect: origin plus width and height (u16 fields as Nat). -/
structure Rect where
  x : Nat
  y : Nat
  width : Nat
  height : Nat
deriving DecidableEq

/-- Model of ratatui Rect::right: x + width. -/
def Rect.right (r : Rect) : Nat := r.x + r.width

/-- Model of ratatui Rect::bottom: y + height. -/
def Rect.bottom (r : Rect) : Nat := r.y + r.height

/-- Model of ratatui Rect::area: width * height. -/
def Rect.rectArea (r : Rect) : Nat := r.width * r.height

/-- Model of ratatui Rect::contains for a position. -/
def Rect.containsPos (r : Rect) (p : Position) : Bool :=
  decide (r.x ≤ p.x) && decide (p.x < r.right) &&
  decide (r.y ≤ p.y) && decide (p.y < r.bottom)

/-- Model of ratatui Rect::inner: shrinks the rect by the margin on every
side; returns the zero rect when the margin does not fit. -/
def Rect.inner (r : Rect) (m : Margin) : Rect :=
  if r.width < 2 * m.horizontal ∨ r.height < 2 * m.vertical then ⟨0, 0, 0, 0⟩
  else ⟨r.x + m.horizontal, r.y + m.vertical,
        r.width - 2 * m.horizontal, r.height - 2 * m.vertical⟩

/-- Model of ratatui Rect::intersection (Nat subtraction is saturating,
matching the u16 saturating_sub used by ratatui). -/
def Rect.intersection (r o : Rect) : Rect :=
  let x1 := max r.x o.x
  let y1 := max r.y o.y
  let x2 := min r.right o.right
  let y2 := min r.bottom o.bottom
  ⟨x1, y1, x2 - x1, y2 - y1⟩

/-- Model of ratatui Color; the filter code only compares colors for
equality, so a small representative constructor set suffices. -/
inductive Color where
  | Reset
  | Indexed (i : Nat)
  | Rgb (r g b : Nat)
deriving DecidableEq

/-- Model of ratatui Style: optional foreground and background patch. -/
structure Style where
  fg : Option Color := none
  bg : Option Color := none
deriving DecidableEq

/-- Model of a ratatui buffer Cell: symbol string, colors and skip flag. -/
structure Cell where
  symbol : String
  fg : Color
  bg : Color
  skip : Bool
deriving DecidableEq

/-- Model of Cell::set_char for a single character. -/
def Cell.setChar (c : Cell) (ch : Char) : Cell :=
  { c with symbol := String.mk [ch] }

/-- Model of Cell::set_style: applies the optional fg/bg of the patch. -/
def Cell.setStyle (c : Cell) (s : Style) : Cell :=
  { c with fg := s.fg.getD c.fg, bg := s.bg.getD c.bg }

/-- Model of ratatui Buffer: a rectangular area together with its cell
contents, represented as a total function on positions (only positions
inside the area are meaningful; ratatui indexing panics outside). -/
structure Buffer where
  area : Rect
  cells : Position → Cell

/-- Model of ratatui Buffer indexing (read); none models the panic on a
position outside the buffer area. -/
def Buffer.get (b : Buffer) (p : Position) : Option Cell :=
  if b.area.containsPos p then some (b.cells p) else none

/-- Model of ratatui Buffer indexing (write); none models the panic on a
position outside the buffer area. -/
def Buffer.set (b : Buffer) (p : Position) (c : Cell) : Option Buffer :=
  if b.area.containsPos p then
    some { b with cells := fun q => if q = p then c else b.cells q }
  else none

/-- Embedding of CellFilter (src/cell_filter.rs, lines 24-52).  The
Layout variant abstracts the external ratatui layout solver as a function
from the area and the slot index to the resolved sub-rect; PositionFn and
EvalCell hold their predicate closures as functions. -/
inductive CellFilter where
  | All
  | FgColor (color : Color)
  | BgColor (color : Color)
  | Inner (margin : Margin)
  | Outer (margin : Margin)
  | Text
  | AllOf (s : List CellFilter)
  | AnyOf (s : List CellFilter)
  | NoneOf (s : List CellFilter)
  | Not (m : CellFilter)
  | Layout (split : Rect → Nat → Rect) (idx : Nat)
  | PositionFn (f : Position → Bool)
  | EvalCell (f : Cell → Bool)

/-- Embedding of CellPredicate::resolve_area (src/cell_filter.rs, lines
146-162). -/
def CellPredicate.resolveArea (area : Rect) : CellFilter → Rect
  | .All => area
  | .Inner margin => area.inner margin
  | .Outer margin => area.inner margin
  | .Text => area
  | .AllOf _ => area
  | .AnyOf _ => area
  | .NoneOf _ => area
  | .Not m => CellPredicate.resolveArea area m
  | .FgColor _ => area
  | .BgColor _ => area
  | .Layout split idx => split area idx
  | .PositionFn _ => area
  | .EvalCell _ => area

mutual

/-- Embedding of CellPredicate::valid_position (src/cell_filter.rs, lines
182-208); the first argument is the inner_area of the predicate.  List
combinators re-resolve each child against the current inner area, exactly
as mode.selector(self.inner_area).valid_position(pos, mode) does. -/
def CellPredicate.validPosition (a : Rect) (pos : Position) : CellFilter → Bool
  | .All => a.containsPos pos
  | .Layout _ _ => a.containsPos pos
  | .Inner _ => a.containsPos pos
  | .Outer _ => !(a.containsPos pos)
  | .Text => a.containsPos pos
  | .AllOf s => CellPredicate.validPositionAll a pos s
  | .AnyOf s => CellPredicate.validPositionAny a pos s
  | .NoneOf s => CellPredicate.validPositionNone a pos s
  | .Not m => CellPredicate.validPosition a pos m
  | .FgColor _ => a.containsPos pos
  | .BgColor _ => a.containsPos pos
  | .PositionFn f => f pos
  | .EvalCell _ => a.containsPos pos

/-- Iterator all over the AllOf children of valid_position. -/
def CellPredicate.validPositionAll (a : Rect) (pos : Position) : List CellFilter → Bool
  | [] => true
  | m :: rest =>
      CellPredicate.validPosition (CellPredicate.resolveArea a m) pos m &&
      CellPredicate.validPositionAll a pos rest

/-- Iterator any over the AnyOf children of valid_position. -/
def CellPredicate.validPositionAny (a : Rect) (pos : Position) : List CellFilter → Bool
  | [] => false
  | m :: rest =>
      CellPredicate.validPosition (CellPredicate.resolveArea a m) pos m ||
      CellPredicate.validPositionAny a pos rest

/-- Iterator all-of-negations over the NoneOf children of valid_position. -/
def CellPredicate.validPositionNone (a : Rect) (pos : Position) : List CellFilter → Bool
  | [] => true
  | m :: rest =>
      !(CellPredicate.validPosition (CellPredicate.resolveArea a m) pos m) &&
      CellPredicate.validPositionNone a pos rest

end

mutual

/-- Embedding of CellPredicate::is_valid_cell (src/cell_filter.rs, lines
210-242).  The catch-all arm of the Rust match returns true.  The Text
arm follows the Rust code: a one-byte symbol whose character is
alphabetic, numeric, a space or one of a small punctuation set (a one
byte symbol is ASCII, so the ASCII classifiers coincide with the Unicode
ones used by Rust). -/
def CellPredicate.isValidCell (a : Rect) (cell : Cell) : CellFilter → Bool
  | .Text =>
      if cell.symbol.utf8ByteSize = 1 then
        let ch := cell.symbol.front
        ch.isAlpha || ch.isDigit || ch == ' ' || ("?!.,:;".contains ch)
      else false
  | .AllOf s => CellPredicate.isValidCellAll a cell s
  | .FgColor color => cell.fg == color
  | .BgColor color => cell.bg == color
  | .Not m => !(CellPredicate.isValidCell a cell m)
  | .EvalCell f => f cell
  | _ => true

/-- Iterator all over the AllOf children of is_valid_cell. -/
def CellPredicate.isValidCellAll (a : Rect) (cell : Cell) : List CellFilter → Bool
  | [] => true
  | m :: rest =>
      CellPredicate.isValidCell (CellPredicate.resolveArea a m) cell m &&
      CellPredicate.isValidCellAll a cell rest

end

/-- Embedding of CellPredicate (src/cell_filter.rs, lines 120-130). -/
structure CellPredicate where
  inner_area : Rect
  strategy : CellFilter

/-- Embedding of CellFilter::selector / CellPredicate::new (src/cell_filter.rs,
lines 140-144 and 246-248). -/
def CellFilter.selector (f : CellFilter) (area : Rect) : CellPredicate :=
  { inner_area := CellPredicate.resolveArea area f, strategy := f }

/-- Embedding of CellPredicate::is_valid (src/cell_filter.rs, lines 175-180):
position test AND content test against the resolved inner area. -/
def CellPredicate.isValid (p : CellPredicate) (pos : Position) (cell : Cell) : Bool :=
  CellPredicate.validPosition p.inner_area pos p.strategy &&
  CellPredicate.isValidCell p.inner_area cell p.strategy

/-- Modelled from the spec: the interpolation curve kinds of the missing
Timer/Interpolation module (spec 4.1).  The claims only exercise the
linear curve; two representative easing curves are included so that the
curve set is not degenerate.  Curves are pure functions over rationals
(the f32 arithmetic of the code is modelled exactly by rationals on the
linear curve, where it is exact). -/
inductive Interpolation where
  | Linear
  | QuadIn
  | QuadOut
deriving DecidableEq

/-- Modelled from the spec: applying a curve to a progress value. -/
def Interpolation.apply : Interpolation → ℚ → ℚ
  | .Linear, t => t
  | .QuadIn, t => t * t
  | .QuadOut, t => t * (2 - t)

/-- Modelled from the spec: the EffectTimer value (spec 3, 4.1), whose
source module is not present under src/.  Fields: elapsed and total
duration (milliseconds as Nat), the easing curve, and the reversed flag.
Invariant kept by process: elapsed never exceeds total. -/
structure EffectTimer where
  elapsed : Nat
  total : Nat
  interpolation : Interpolation
  reversed : Bool
deriving DecidableEq

/-- Modelled from the spec: done() holds when elapsed reaches total
(immediately when total is zero). -/
def EffectTimer.done (t : EffectTimer) : Bool := decide (t.total ≤ t.elapsed)

/-- Modelled from the spec: clamp a rational to the unit interval. -/
def clampUnit (q : ℚ) : ℚ := max 0 (min 1 q)

/-- Modelled from the spec: alpha() is curve(elapsed/total) clamped to
[0,1], flipped to 1 - alpha when the timer is reversed; a zero-duration
timer is immediately done with alpha 1 (or 0 when reversed), as an
explicit special case avoiding the division by zero. -/
def EffectTimer.alpha (t : EffectTimer) : ℚ :=
  let progress : ℚ := if t.total = 0 then 1 else (t.elapsed : ℚ) / (t.total : ℚ)
  let a := clampUnit (t.interpolation.apply progress)
  if t.reversed then 1 - a else a

/-- Modelled from the spec: process(delta) advances elapsed by delta and
clamps it to total; it returns the surplus time (elapsed - total) exactly
on the call that completes the timer, and none otherwise (in particular
none on every call made after completion). -/
def EffectTimer.process (t : EffectTimer) (delta : Nat) : EffectTimer × Option Nat :=
  if t.total ≤ t.elapsed then (t, none)
  else
    let e := t.elapsed + delta
    if t.total ≤ e then ({ t with elapsed := t.total }, some (e - t.total))
    else ({ t with elapsed := e }, none)

/-- Modelled from the spec: reset() sets elapsed back to zero. -/
def EffectTimer.reset (t : EffectTimer) : EffectTimer := { t with elapsed := 0 }

/-- Modelled from the spec: reversed() returns the timer with the same
elapsed and total but the direction flag toggled. -/
def EffectTimer.rev (t : EffectTimer) : EffectTimer := { t with reversed := !t.reversed }

/-- Processing a list of deltas in order, collecting the per-call
overflow results; a direct fold of EffectTimer.process over the list. -/
def EffectTimer.processAll (t : EffectTimer) : List Nat → EffectTimer × List (Option Nat)
  | [] => (t, [])
  | d :: rest =>
      let (t1, o) := t.process d
      let (tN, os) := t1.processAll rest
      (tN, o :: os)

/-- Prefix sum of the first n deltas of a list. -/
def sumTake (ds : List Nat) (n : Nat) : Nat := ((ds.take n).sum)

/-- State of a shader that relies on the default trait implementations of
src/shader.rs: an optional timer plus the remaining shader state, of an
abstract type; the execute method is modelled as an explicit function
argument of the default process embedding. -/
structure DefaultShader (σ : Type) where
  timer : Option EffectTimer
  state : σ

/-- The alpha value the default process hands to execute: the alpha of
the timer after it advanced by the delta, and 1.0 when no timer exists
(src/shader.rs, lines 54-56). -/
def defaultAlpha (timer : Option EffectTimer) (duration : Nat) : ℚ :=
  match timer with
  | some t => ((t.process duration).1).alpha
  | none => 1

/-- Embedding of the default Shader::process (src/shader.rs, lines 48-61):
let (overflow, alpha) = timer.map(t => (t.process(duration), t.alpha()))
.unwrap_or((none, 1.0)); execute(alpha, area, buf); return overflow. -/
def Shader.processDefault {σ : Type}
    (exec : ℚ → Rect → Buffer → σ → σ × Buffer)
    (s : DefaultShader σ) (duration : Nat) (buf : Buffer) (area : Rect) :
    DefaultShader σ × Buffer × Option Nat :=
  let r : Option EffectTimer × Option Nat × ℚ :=
    match s.timer with
    | some t =>
        let (t1, ov) := t.process duration
        (some t1, ov, t1.alpha)
    | none => (none, none, 1)
  let (st1, buf1) := exec r.2.2 area buf s.state
  ({ timer := r.1, state := st1 }, buf1, r.2.1)

/-- Embedding of the default Shader::reset (src/shader.rs, lines 187-193):
resets the timer when one exists and panics otherwise; the panic is
modelled as an error carrying the panic message. -/
def Shader.resetDefault (timer : Option EffectTimer) : Except String EffectTimer :=
  match timer with
  | some t => .ok t.reset
  | none => .error "Shader must implement reset()"

/-- Operations of the wrapped inner Effect as used by TemporaryEffect:
process, area and done over an abstract effect state type. -/
structure EffectOps (σ : Type) where
  process : σ → Nat → Buffer → Rect → σ × Buffer × Option Nat
  area : σ → Option Rect
  doneFlag : σ → Bool

/-- Embedding of TemporaryEffect (src/fx/temporary.rs, lines 10-14): an
inner effect plus the outer duration timer. -/
structure TemporaryEffect (σ : Type) where
  effect : σ
  duration : EffectTimer

/-- Embedding of TemporaryEffect::process (src/fx/temporary.rs, lines
23-33): advance the outer timer, resolve the effect area, forward the
whole delta to the inner effect, and return the outer timer overflow
(the inner overflow is dropped). -/
def TemporaryEffect.process {σ : Type} (ops : EffectOps σ) (t : TemporaryEffect σ)
    (duration : Nat) (buf : Buffer) (area : Rect) :
    TemporaryEffect σ × Buffer × Option Nat :=
  let (dur1, remaining) := t.duration.process duration
  let effectArea := (ops.area t.effect).getD area
  let (e1, buf1, _innerOverflow) := ops.process t.effect duration buf effectArea
  ({ effect := e1, duration := dur1 }, buf1, remaining)

/-- Embedding of TemporaryEffect::done (src/fx/temporary.rs, lines 39-41):
outer timer done OR inner effect done. -/
def TemporaryEffect.doneFlag {σ : Type} (ops : EffectOps σ) (t : TemporaryEffect σ) : Bool :=
  t.duration.done || ops.doneFlag t.effect

/-- Model of ratatui Offset: signed translation components (i32). -/
structure Offset where
  x : Int
  y : Int

/-- Embedding of ClipRegion (src/buffer_renderer.rs, lines 257-260). -/
structure ClipRegion where
  src : Rect
  dst : Rect

/-- Embedding of ClipRegion::new (src/buffer_renderer.rs, lines 262-291).
The Rust body computes dst.width - x_offset and dst.height - y_offset on
u16; when a negative offset exceeds the source region dimensions this
subtraction underflows, a panic in debug builds (and an out-of-bounds
source index, hence a panic, in release builds); the underflow is
modelled as none.  The cast of the non-negative offset components to u16
wraps modulo 2^16, as the Rust as-cast does; saturating_sub is Nat
subtraction. -/
def ClipRegion.new (src_region : Rect) (dst_bounds : Rect) (dst_offset : Offset) :
    Option ClipRegion :=
  let x_offset : Nat := (min dst_offset.x 0).natAbs
  let y_offset : Nat := (min dst_offset.y 0).natAbs
  let dst : Rect := ⟨(max dst_offset.x 0).toNat % 65536, (max dst_offset.y 0).toNat % 65536,
                     src_region.width, src_region.height⟩
  if dst.width < x_offset ∨ dst.height < y_offset then none
  else
    let width := min (min (dst.width - x_offset) (dst_bounds.width - dst.x)) src_region.width
    let height := min (min (dst.height - y_offset) (dst_bounds.height - dst.y)) src_region.height
    some { src := ⟨src_region.x + x_offset, src_region.y + y_offset, width, height⟩,
           dst := ⟨dst.x, dst.y, width, height⟩ }

/-- Embedding of ClipRegion::is_valid (src/buffer_renderer.rs, 293-295). -/
def ClipRegion.isValidClip (c : ClipRegion) : Bool := decide (0 < c.src.rectArea)

/-- Embedding of ClipRegion::src_pos (src/buffer_renderer.rs, 309-311). -/
def ClipRegion.srcPos (c : ClipRegion) (p : Position) : Position :=
  ⟨c.src.x + p.x, c.src.y + p.y⟩

/-- Embedding of ClipRegion::dst_pos (src/buffer_renderer.rs, 313-315). -/
def ClipRegion.dstPos (c : ClipRegion) (p : Position) : Position :=
  ⟨c.dst.x + p.x, c.dst.y + p.y⟩

/-- Row-major list of the positions of a rect (ratatui Rect::positions). -/
def Rect.positionsList (r : Rect) : List Position :=
  (List.range r.height).flatMap fun dy =>
    (List.range r.width).map fun dx => ⟨r.x + dx, r.y + dy⟩

/-- Embedding of ClipRegion::normalized_positions (src/buffer_renderer.rs,
305-307): the positions of the origin rect of the clip size. -/
def ClipRegion.normalizedPositions (c : ClipRegion) : List Position :=
  Rect.positionsList ⟨0, 0, c.src.width, c.src.height⟩

/-- One iteration of the copy loop of blit_buffer_region (src/buffer_renderer.rs,
lines 135-142): read the source cell (panicking outside the source
buffer), leave the destination untouched when the cell is skip-flagged,
otherwise write the cell into the destination (panicking outside the
destination buffer). -/
def blitStep (src : Buffer) (clip : ClipRegion) (dst : Buffer) (p : Position) : Option Buffer :=
  match src.get (clip.srcPos p) with
  | none => none
  | some c => if c.skip then some dst else dst.set (clip.dstPos p) c

/-- Embedding of blit_buffer_region (src/buffer_renderer.rs, lines 120-143):
clip the source region to the source buffer, build the clip region,
return the destination unchanged when the clipped area is empty, and
otherwise copy the non-skipped cells cell by cell. -/
def blit_buffer_region (src : Buffer) (src_region : Rect) (dst : Buffer) (offset : Offset) :
    Option Buffer :=
  let region := src_region.intersection src.area
  match ClipRegion.new region dst.area offset with
  | none => none
  | some clip =>
      if !clip.isValidClip then some dst
      else clip.normalizedPositions.foldlM (fun b p => blitStep src clip b p) dst

/-- Modelled from the spec: SimpleRng, the seedable linear-congruential
generator of the missing simple_rng module (spec sections 6 and 9),
producing deterministic uniform values; constants are those of a standard
32-bit LCG.  The claims depend only on the generator being a pure
function of a state that is copied by value. -/
structure SimpleRng where
  seed : Nat
deriving DecidableEq

/-- Modelled from the spec: one LCG step. -/
def SimpleRng.next (r : SimpleRng) : Nat × SimpleRng :=
  let s := (1664525 * r.seed + 1013904223) % 4294967296
  (s, ⟨s⟩)

/-- Modelled from the spec: gen_f32 draws the next state and scales it to
a rational in the unit interval [0,1). -/
def SimpleRng.genF32 (r : SimpleRng) : ℚ × SimpleRng :=
  let (s, r1) := r.next
  ((s : ℚ) / 4294967296, r1)

/-- Modelled from the spec: the cell iterator of the missing cell_iter
module (spec section 4.3) yields the positions of the given area, in
row-major order, restricted to buffer positions whose cell is accepted by
the cell-selection predicate over that area. -/
def cellIterPositions (buf : Buffer) (area : Rect) (filter : CellFilter) : List Position :=
  (Rect.positionsList area).filter fun p =>
    buf.area.containsPos p && (filter.selector area).isValid p (buf.cells p)

/-- Embedding of Dissolve (src/fx/dissolve.rs, lines 9-16). -/
structure Dissolve where
  timer : EffectTimer
  dissolved_style : Option Style
  area : Option Rect
  cell_filter : CellFilter
  lcg : SimpleRng

/-- The per-cell loop of Dissolve::execute: walk the iterated cells in
order, draw one random value per cell from the local generator copy, and
blank (and optionally restyle) each cell whose draw is below alpha. -/
def dissolveLoop (alpha : ℚ) (style : Option Style) :
    SimpleRng → List Position → Buffer → Buffer
  | _, [], b => b
  | lcg, p :: rest, b =>
      let (v, lcg1) := lcg.genF32
      if alpha > v then
        let c0 := (b.cells p).setChar ' '
        let c1 := match style with
          | some st => c0.setStyle st
          | none => c0
        dissolveLoop alpha style lcg1 rest
          { b with cells := fun q => if q = p then c1 else b.cells q }
      else
        dissolveLoop alpha style lcg1 rest b

/-- Embedding of Dissolve::execute (src/fx/dissolve.rs, lines 45-63): read
alpha from the timer, iterate the filtered cells, and blank the cells
whose per-cell random draw is below alpha.  The Rust method copies
self.lcg into a local generator and writes no field of self; the
embedding therefore returns the shader state unchanged next to the
updated buffer. -/
def Dissolve.execute (d : Dissolve) (area : Rect) (buf : Buffer) : Dissolve × Buffer :=
  let alpha := d.timer.alpha
  let ps := cellIterPositions buf area d.cell_filter
  (d, dissolveLoop alpha d.dissolved_style d.lcg ps buf)

/-- The positions a Dissolve::execute call blanks: the iterated cells
whose random draw is below alpha, in iteration order. -/
def dissolveSelect (alpha : ℚ) : SimpleRng → List Position → List Position
  | _, [] => []
  | lcg, p :: rest =>
      let (v, lcg1) := lcg.genF32
      if alpha > v then p :: dissolveSelect alpha lcg1 rest
      else dissolveSelect alpha lcg1 rest

/-- The set of cells a Dissolve::execute call blanks, as decided by the
same iteration as Dissolve.execute. -/
def Dissolve.dissolvedPositions (d : Dissolve) (area : Rect) (buf : Buffer) : List Position :=
  dissolveSelect d.timer.alpha d.lcg (cellIterPositions buf area d.cell_filter)

/-- Concrete sample cell used by closed evaluation theorems. -/
def sampleCell : Cell := ⟨".", .Reset, .Reset, false⟩

/-- Concrete 4x4 source buffer used by closed evaluation theorems. -/
def srcBuf4 : Buffer := ⟨⟨0, 0, 4, 4⟩, fun _ => sampleCell⟩

/-- Concrete 8x8 destination buffer used by closed evaluation theorems. -/
def dstBuf8 : Buffer := ⟨⟨0, 0, 8, 8⟩, fun _ => sampleCell⟩

/-- Concrete timer used by witness theorems. -/
def witnessTimer : EffectTimer := ⟨2, 4, .Linear, false⟩

/-- Concrete dissolve shader state used by witness theorems. -/
def witnessDissolve : Dissolve := ⟨witnessTimer, none, none, .All, ⟨42⟩⟩

/-- Concrete 2x1 buffer used by witness theorems. -/
def witnessBuf : Buffer := ⟨⟨0, 0, 2, 1⟩, fun _ => sampleCell⟩

theorem sumTake_zero (ds : List Nat) : sumTake ds 0 = 0 := rfl

theorem sumTake_cons_succ (d : Nat) (rest : List Nat) (i : Nat) :
    sumTake (d :: rest) (i + 1) = d + sumTake rest i := by
  simp [sumTake]

theorem sumTake_le_succ (ds : List Nat) (i : Nat) : sumTake ds i ≤ sumTake ds (i + 1) := by
  rw [sumTake, sumTake, List.take_succ, List.sum_append]
  exact Nat.le_add_right _ _

theorem sumTake_mono (ds : List Nat) {m n : Nat} (h : m ≤ n) :
    sumTake ds m ≤ sumTake ds n := by
  induction h with
  | refl => exact le_refl _
  | step _ ih => exact le_trans ih (sumTake_le_succ ds _)

theorem processAll_nil (t : EffectTimer) : t.processAll [] = (t, []) := rfl

theorem processAll_cons_state (t : EffectTimer) (d : Nat) (rest : List Nat) :
    (t.processAll (d :: rest)).1 = (((t.process d).1).processAll rest).1 := rfl

theorem processAll_cons_out (t : EffectTimer) (d : Nat) (rest : List Nat) :
    (t.processAll (d :: rest)).2
      = (t.process d).2 :: (((t.process d).1).processAll rest).2 := rfl

theorem process_of_done (t : EffectTimer) (d : Nat) (h : t.total ≤ t.elapsed) :
    t.process d = (t, none) := by
  simp [EffectTimer.process, h]

theorem process_of_complete (t : EffectTimer) (d : Nat) (h1 : ¬ t.total ≤ t.elapsed)
    (h2 : t.total ≤ t.elapsed + d) :
    t.process d = ({ t with elapsed := t.total }, some (t.elapsed + d - t.total)) := by
  simp [EffectTimer.process, h1, h2]

theorem process_of_running (t : EffectTimer) (d : Nat) (h1 : ¬ t.total ≤ t.elapsed)
    (h2 : ¬ t.total ≤ t.elapsed + d) :
    t.process d = ({ t with elapsed := t.elapsed + d }, none) := by
  simp [EffectTimer.process, h1, h2]

theorem processAll_elapsed (ds : List Nat) : ∀ t : EffectTimer, t.elapsed ≤ t.total →
    ((t.processAll ds).1).elapsed = min (t.elapsed + ds.sum) t.total := by
  induction ds with
  | nil =>
      intro t h
      rw [processAll_nil]
      simp
      omega
  | cons d rest ih =>
      intro t h
      rw [processAll_cons_state]
      by_cases h1 : t.total ≤ t.elapsed
      · rw [process_of_done t d h1, ih t h]
        simp [List.sum_cons]
        omega
      · by_cases h2 : t.total ≤ t.elapsed + d
        · rw [process_of_complete t d h1 h2, ih _ (by simp)]
          simp [List.sum_cons]
          omega
        · rw [process_of_running t d h1 h2, ih _ (by simp; omega)]
          simp [List.sum_cons]
          omega

theorem processAll_total (ds : List Nat) : ∀ t : EffectTimer,
    ((t.processAll ds).1).total = t.total := by
  induction ds with
  | nil => intro t; rw [processAll_nil]
  | cons d rest ih =>
      intro t
      rw [processAll_cons_state, ih]
      simp only [EffectTimer.process]
      split
      · rfl
      · split <;> rfl

theorem processAll_interp (ds : List Nat) : ∀ t : EffectTimer,
    ((t.processAll ds).1).interpolation = t.interpolation := by
  induction ds with
  | nil => intro t; rw [processAll_nil]
  | cons d rest ih =>
      intro t
      rw [processAll_cons_state, ih]
      simp only [EffectTimer.process]
      split
      · rfl
      · split <;> rfl

theorem processAll_reversedFlag (ds : List Nat) : ∀ t : EffectTimer,
    ((t.processAll ds).1).reversed = t.reversed := by
  induction ds with
  | nil => intro t; rw [processAll_nil]
  | cons d rest ih =>
      intro t
      rw [processAll_cons_state, ih]
      simp only [EffectTimer.process]
      split
      · rfl
      · split <;> rfl

theorem processAll_outs (ds : List Nat) : ∀ t : EffectTimer, t.elapsed ≤ t.total →
    0 < t.total →
    (t.processAll ds).2 = (List.range ds.length).map (fun i =>
      if t.elapsed + sumTake ds i < t.total ∧ t.total ≤ t.elapsed + sumTake ds (i + 1)
      then some (t.elapsed + sumTake ds (i + 1) - t.total) else none) := by
  induction ds with
  | nil =>
      intro t _ _
      rw [processAll_nil]
      rfl
  | cons d rest ih =>
      intro t h hT
      rw [processAll_cons_out, List.length_cons, List.range_succ_eq_map,
          List.map_cons, List.map_map]
      by_cases h1 : t.total ≤ t.elapsed
      · rw [process_of_done t d h1]
        congr 1
        · rw [if_neg]
          simp only [sumTake_zero]
          omega
        · rw [ih t h hT]
          apply List.map_congr_left
          intro i hi
          rw [if_neg, Function.comp_apply, if_neg]
          · rw [sumTake_cons_succ]
            omega
          · omega
      · by_cases h2 : t.total ≤ t.elapsed + d
        · rw [process_of_complete t d h1 h2]
          congr 1
          · dsimp only
            simp only [sumTake_cons_succ, sumTake_zero, Nat.add_zero]
            rw [if_pos (by omega)]
          · dsimp only
            rw [ih { t with elapsed := t.total } (le_refl _) hT]
            apply List.map_congr_left
            intro i hi
            simp only [Function.comp_apply, Nat.succ_eq_add_one, sumTake_cons_succ]
            rw [if_neg (by omega), if_neg (by omega)]
        · rw [process_of_running t d h1 h2]
          congr 1
          · dsimp only
            simp only [sumTake_cons_succ, sumTake_zero, Nat.add_zero]
            rw [if_neg (by omega)]
          · dsimp only
            rw [ih { t with elapsed := t.elapsed + d } (by show t.elapsed + d ≤ t.total; omega) hT]
            apply List.map_congr_left
            intro i hi
            simp only [Function.comp_apply, Nat.succ_eq_add_one, sumTake_cons_succ,
              Nat.add_assoc]

theorem exists_crossing : ∀ (ds : List Nat) (T : Nat), 0 < T → T ≤ ds.sum →
    ∃ i, i < ds.length ∧ sumTake ds i < T ∧ T ≤ sumTake ds (i + 1) := by
  intro ds
  induction ds with
  | nil =>
      intro T hT hle
      simp at hle
      omega
  | cons d rest ih =>
      intro T hT hle
      by_cases hd : T ≤ d
      · refine ⟨0, by simp, ?_, ?_⟩
        · simp [sumTake_zero]
          omega
        · rw [sumTake_cons_succ, sumTake_zero]
          omega
      · have h2 : T - d ≤ rest.sum := by
          simp [List.sum_cons] at hle
          omega
        obtain ⟨i, hi, hlo, hhi⟩ := ih (T - d) (by omega) h2
        refine ⟨i + 1, by simpa using Nat.succ_lt_succ hi, ?_, ?_⟩
        · rw [sumTake_cons_succ]
          omega
        · rw [sumTake_cons_succ]
          omega

theorem processAll_state (ds : List Nat) (t : EffectTimer) (h : t.elapsed ≤ t.total) :
    (t.processAll ds).1
      = ⟨min (t.elapsed + ds.sum) t.total, t.total, t.interpolation, t.reversed⟩ := by
  have h1 := processAll_elapsed ds t h
  have h2 := processAll_total ds t
  have h3 := processAll_interp ds t
  have h4 := processAll_reversedFlag ds t
  cases hq : (t.processAll ds).1 with
  | mk e1 T1 c1 r1 =>
      rw [hq] at h1 h2 h3 h4
      dsimp only at h1 h2 h3 h4
      rw [h1, h2, h3, h4]

theorem alpha_mk (E T : Nat) (rev : Bool) :
    (EffectTimer.alpha ⟨E, T, .Linear, rev⟩)
      = if rev then 1 - clampUnit (if T = 0 then 1 else (E : ℚ) / (T : ℚ))
        else clampUnit (if T = 0 then 1 else (E : ℚ) / (T : ℚ)) := rfl

theorem clampUnit_half : clampUnit (1 / 2) = 1 / 2 := by
  rw [clampUnit]
  norm_num

theorem clampUnit_one : clampUnit 1 = 1 := by
  rw [clampUnit]
  norm_num

theorem crossing_unique (ds : List Nat) (T : Nat) {i j : Nat}
    (hi1 : sumTake ds i < T) (hi2 : T ≤ sumTake ds (i + 1))
    (hj1 : sumTake ds j < T) (hj2 : T ≤ sumTake ds (j + 1)) : j = i := by
  by_contra hne
  rcases Nat.lt_or_ge j i with hlt | hge
  · have : sumTake ds (j + 1) ≤ sumTake ds i := sumTake_mono ds hlt
    omega
  · have hgt : i < j := by omega
    have : sumTake ds (i + 1) ≤ sumTake ds j := sumTake_mono ds hgt
    omega

theorem containsPos_origin {w h : Nat} {p : Position} :
    Rect.containsPos ⟨0, 0, w, h⟩ p = true ↔ (p.x < w ∧ p.y < h) := by
  simp [Rect.containsPos, Rect.right, Rect.bottom]

theorem mem_positionsList_origin {w h : Nat} {p : Position} :
    p ∈ Rect.positionsList ⟨0, 0, w, h⟩ ↔ (p.x < w ∧ p.y < h) := by
  simp only [Rect.positionsList, List.mem_flatMap, List.mem_map, List.mem_range]
  constructor
  · rintro ⟨dy, hdy, dx, hdx, rfl⟩
    simpa using ⟨hdx, hdy⟩
  · rintro ⟨hx, hy⟩
    exact ⟨p.y, hy, p.x, hx, by cases p; simp⟩

theorem inter_self_origin (w h : Nat) :
    Rect.intersection ⟨0, 0, w, h⟩ ⟨0, 0, w, h⟩ = ⟨0, 0, w, h⟩ := by
  simp [Rect.intersection, Rect.right, Rect.bottom]

theorem clipRegion_new_id (w h : Nat) :
    ClipRegion.new ⟨0, 0, w, h⟩ ⟨0, 0, w, h⟩ ⟨0, 0⟩
      = some ⟨⟨0, 0, w, h⟩, ⟨0, 0, w, h⟩⟩ := by
  simp [ClipRegion.new]

theorem srcPos_id (w h : Nat) (q : Position) :
    ClipRegion.srcPos ⟨⟨0, 0, w, h⟩, ⟨0, 0, w, h⟩⟩ q = q := by
  cases q
  simp [ClipRegion.srcPos]

theorem dstPos_id (w h : Nat) (q : Position) :
    ClipRegion.dstPos ⟨⟨0, 0, w, h⟩, ⟨0, 0, w, h⟩⟩ q = q := by
  cases q
  simp [ClipRegion.dstPos]

theorem blit_fold_source (src : Buffer) (clip : ClipRegion) :
    ∀ (ps : List Position) (b b2 : Buffer),
      ps.foldlM (fun acc p => blitStep src clip acc p) b = some b2 →
      ∀ p : Position, b2.cells p = b.cells p
        ∨ ∃ q, (src.cells q).skip = false ∧ b2.cells p = src.cells q := by
  intro ps
  induction ps with
  | nil =>
      intro b b2 h p
      simp only [List.foldlM_nil] at h
      cases h
      exact Or.inl rfl
  | cons q rest ih =>
      intro b b2 h p
      rw [List.foldlM_cons] at h
      cases hstep : blitStep src clip b q with
      | none => rw [hstep] at h; simp at h
      | some b1 =>
          rw [hstep] at h
          have h2 : rest.foldlM (fun acc p => blitStep src clip acc p) b1 = some b2 := h
          rcases ih b1 b2 h2 p with hsame | hsrc
          · unfold blitStep at hstep
            cases hget : src.get (clip.srcPos q) with
            | none => rw [hget] at hstep; simp at hstep
            | some c =>
                rw [hget] at hstep
                dsimp only at hstep
                have hc : c = src.cells (clip.srcPos q) := by
                  unfold Buffer.get at hget
                  by_cases hin : src.area.containsPos (clip.srcPos q) = true
                  · rw [if_pos hin] at hget
                    cases hget
                    rfl
                  · rw [if_neg hin] at hget
                    cases hget
                by_cases hskip : c.skip = true
                · rw [if_pos hskip] at hstep
                  cases hstep
                  exact Or.inl hsame
                · rw [if_neg hskip] at hstep
                  unfold Buffer.set at hstep
                  by_cases hin : b.area.containsPos (clip.dstPos q) = true
                  · rw [if_pos hin] at hstep
                    cases hstep
                    by_cases hp : p = clip.dstPos q
                    · refine Or.inr ⟨clip.srcPos q, ?_, ?_⟩
                      · rw [← hc]
                        simpa using hskip
                      · rw [hsame, ← hc]
                        simp [hp]
                    · refine Or.inl ?_
                      rw [hsame]
                      simp [hp]
                  · rw [if_neg hin] at hstep
                    cases hstep
          · exact Or.inr hsrc

theorem blit_fold_id (src : Buffer) (clip : ClipRegion)
    (hid1 : ∀ q, clip.srcPos q = q) (hid2 : ∀ q, clip.dstPos q = q) :
    ∀ (ps : List Position) (b : Buffer),
      (∀ q ∈ ps, src.area.containsPos q = true ∧ b.area.containsPos q = true) →
      ∃ b2, ps.foldlM (fun acc p => blitStep src clip acc p) b = some b2
        ∧ b2.area = b.area
        ∧ ∀ p : Position, b2.cells p
            = if p ∈ ps ∧ (src.cells p).skip = false then src.cells p else b.cells p := by
  intro ps
  induction ps with
  | nil =>
      intro b _
      refine ⟨b, rfl, rfl, fun p => ?_⟩
      rw [if_neg (fun hcon => absurd hcon.1 (List.not_mem_nil p))]
  | cons q rest ih =>
      intro b hb
      obtain ⟨hsrcq, hbq⟩ := hb q (List.mem_cons_self q rest)
      have hstep : blitStep src clip b q
          = if (src.cells q).skip then some b
            else some { b with cells := fun r => if r = q then src.cells q else b.cells r } := by
        unfold blitStep Buffer.get Buffer.set
        rw [hid1, hid2, if_pos hsrcq]
        dsimp only
        by_cases hskip : (src.cells q).skip = true
        · rw [if_pos hskip, if_pos hskip]
        · rw [if_neg hskip, if_neg hskip, if_pos hbq]
      by_cases hskip : (src.cells q).skip = true
      · rw [if_pos hskip] at hstep
        obtain ⟨b2, hfold, harea, hcells⟩ :=
          ih b (fun r hr => hb r (List.mem_cons_of_mem q hr))
        refine ⟨b2, ?_, harea, fun p => ?_⟩
        · rw [List.foldlM_cons, hstep]
          simpa using hfold
        · rw [hcells p]
          by_cases hp : p = q
          · subst hp
            rw [if_neg (by simp [hskip]), if_neg (by simp [hskip])]
          · by_cases hmem : p ∈ rest ∧ (src.cells p).skip = false
            · rw [if_pos hmem, if_pos ⟨List.mem_cons_of_mem q hmem.1, hmem.2⟩]
            · rw [if_neg hmem, if_neg]
              intro hcon
              exact hmem ⟨(List.mem_cons.1 hcon.1).resolve_left hp, hcon.2⟩
      · rw [if_neg hskip] at hstep
        have hbq1 :
            ∀ r ∈ rest, src.area.containsPos r = true
              ∧ ({ b with cells := fun r => if r = q then src.cells q else b.cells r }
                  : Buffer).area.containsPos r = true := by
          intro r hr
          exact hb r (List.mem_cons_of_mem q hr)
        obtain ⟨b2, hfold, harea, hcells⟩ :=
          ih { b with cells := fun r => if r = q then src.cells q else b.cells r } hbq1
        refine ⟨b2, ?_, harea, fun p => ?_⟩
        · rw [List.foldlM_cons, hstep]
          simpa using hfold
        · rw [hcells p]
          by_cases hmem : p ∈ rest ∧ (src.cells p).skip = false
          · rw [if_pos hmem, if_pos ⟨List.mem_cons_of_mem q hmem.1, hmem.2⟩]
          · rw [if_neg hmem]
            dsimp only
            by_cases hp : p = q
            · subst hp
              rw [if_pos rfl, if_pos ⟨List.mem_cons_self p rest, by simpa using hskip⟩]
            · rw [if_neg hp, if_neg]
              intro hcon
              exact hmem ⟨(List.mem_cons.1 hcon.1).resolve_left hp, hcon.2⟩

/-- C2: for a fresh timer with positive total T on the linear curve,
regardless of how the time is split across the process calls: after
cumulative processed time of exactly T/2 the alpha is exactly one half
(the approximately-0.5 of the claim is exact in the rational model of the
f32 arithmetic); once the cumulative elapsed reaches T the alpha is
exactly 1 (0 when the timer is reversed); and the per-call overflow is
non-none exactly on the call whose cumulative elapsed first reaches T,
where it equals the cumulative elapsed minus T; that call is unique. -/
theorem c2_linear_timer (T : Nat) (rev : Bool) (ds : List Nat) (hT : 0 < T) :
    (2 * ds.sum = T →
        ((EffectTimer.processAll ⟨0, T, .Linear, rev⟩ ds).1).alpha = 1 / 2)
    ∧ (T ≤ ds.sum →
        ((EffectTimer.processAll ⟨0, T, .Linear, rev⟩ ds).1).alpha
          = if rev then 0 else 1)
    ∧ (EffectTimer.processAll ⟨0, T, .Linear, rev⟩ ds).2
        = (List.range ds.length).map (fun i =>
            if sumTake ds i < T ∧ T ≤ sumTake ds (i + 1)
            then some (sumTake ds (i + 1) - T) else none)
    ∧ (T ≤ ds.sum → ∃ i, i < ds.length ∧ sumTake ds i < T ∧ T ≤ sumTake ds (i + 1)
        ∧ ∀ j, sumTake ds j < T → T ≤ sumTake ds (j + 1) → j = i) := by
  refine ⟨?_, ?_, ?_, ?_⟩
  · intro hsum
    rw [processAll_state ds ⟨0, T, .Linear, rev⟩ (by simp)]
    dsimp only
    have hmin : min (0 + ds.sum) T = ds.sum := by omega
    have hT0 : ¬ (T = 0) := by omega
    rw [hmin, alpha_mk, if_neg hT0]
    have hsne : (ds.sum : ℚ) ≠ 0 := by
      have : ds.sum ≠ 0 := by omega
      exact_mod_cast this
    have hT2 : (T : ℚ) = 2 * (ds.sum : ℚ) := by exact_mod_cast hsum.symm
    have key : (ds.sum : ℚ) / (T : ℚ) = 1 / 2 := by
      rw [hT2]
      rw [div_eq_div_iff (by positivity) (by norm_num)]
      ring
    rw [key, clampUnit_half]
    cases rev <;> norm_num
  · intro hsum
    rw [processAll_state ds ⟨0, T, .Linear, rev⟩ (by simp)]
    dsimp only
    have hmin : min (0 + ds.sum) T = T := by omega
    have hT0 : ¬ (T = 0) := by omega
    rw [hmin, alpha_mk, if_neg hT0]
    have hTne : (T : ℚ) ≠ 0 := by
      have : T ≠ 0 := by omega
      exact_mod_cast this
    rw [div_self hTne, clampUnit_one]
    cases rev <;> norm_num
  · rw [processAll_outs ds ⟨0, T, .Linear, rev⟩ (by simp) hT]
    apply List.map_congr_left
    intro i hi
    dsimp only
    rw [Nat.zero_add, Nat.zero_add]
  · intro hsum
    obtain ⟨i, hi, hlo, hhi⟩ := exists_crossing ds T hT hsum
    exact ⟨i, hi, hlo, hhi, fun j hj1 hj2 => crossing_unique ds T hlo hhi hj1 hj2⟩

/-- C2 witness: the timer theorem applied at total 4 milliseconds, a
forward timer and the concrete delta split [1, 1, 2, 3], whose third call
crosses completion exactly, with overflow zero. -/
theorem c2_linear_timer_witness :
    (2 * List.sum [1, 1, 2, 3] = 4 →
        ((EffectTimer.processAll ⟨0, 4, .Linear, false⟩ [1, 1, 2, 3]).1).alpha = 1 / 2)
    ∧ (4 ≤ List.sum [1, 1, 2, 3] →
        ((EffectTimer.processAll ⟨0, 4, .Linear, false⟩ [1, 1, 2, 3]).1).alpha
          = if false then 0 else 1)
    ∧ (EffectTimer.processAll ⟨0, 4, .Linear, false⟩ [1, 1, 2, 3]).2
        = (List.range (List.length [1, 1, 2, 3])).map (fun i =>
            if sumTake [1, 1, 2, 3] i < 4 ∧ 4 ≤ sumTake [1, 1, 2, 3] (i + 1)
            then some (sumTake [1, 1, 2, 3] (i + 1) - 4) else none)
    ∧ (4 ≤ List.sum [1, 1, 2, 3] →
        ∃ i, i < List.length [1, 1, 2, 3] ∧ sumTake [1, 1, 2, 3] i < 4
          ∧ 4 ≤ sumTake [1, 1, 2, 3] (i + 1)
          ∧ ∀ j, sumTake [1, 1, 2, 3] j < 4 → 4 ≤ sumTake [1, 1, 2, 3] (j + 1) → j = i) :=
  c2_linear_timer 4 false [1, 1, 2, 3] (by decide)

/-- C1: the default Shader::process advances the timer by the delta when
one exists, hands execute the resulting alpha (1.0 without a timer)
together with the given area and buffer, calls execute exactly once (the
last conjunct counts the calls with an instrumented execute), and returns
exactly the overflow of the timer advance (none without a timer). -/
theorem c1_default_process {σ : Type} (exec : ℚ → Rect → Buffer → σ → σ × Buffer)
    (s : DefaultShader σ) (duration : Nat) (buf : Buffer) (area : Rect) :
    (Shader.processDefault exec s duration buf area).2.2
        = s.timer.elim none (fun t => (t.process duration).2)
    ∧ (Shader.processDefault exec s duration buf area).2.1
        = (exec (defaultAlpha s.timer duration) area buf s.state).2
    ∧ (Shader.processDefault exec s duration buf area).1.timer
        = s.timer.elim none (fun t => some (t.process duration).1)
    ∧ (Shader.processDefault exec s duration buf area).1.state
        = (exec (defaultAlpha s.timer duration) area buf s.state).1
    ∧ (Shader.processDefault (fun _ _ b (n : Nat) => (n + 1, b))
          ⟨s.timer, 0⟩ duration buf area).1.state = 1 := by
  obtain ⟨timer, state⟩ := s
  cases timer <;> simp [Shader.processDefault, defaultAlpha]

/-- C3 counterexample: on the filter Not(All), with root area 1x1 and
position (0,0), the position test of Not(All) is not the negation of the
position test of All: valid_position for Not delegates to the child
without negating (src/cell_filter.rs, line 202). -/
theorem c3_not_position_counterexample :
    ¬ (CellPredicate.validPosition (CellPredicate.resolveArea ⟨0, 0, 1, 1⟩ (.Not .All))
          ⟨0, 0⟩ (.Not .All)
        = !(CellPredicate.validPosition (CellPredicate.resolveArea ⟨0, 0, 1, 1⟩ .All)
          ⟨0, 0⟩ .All)) := by
  decide

/-- C3 (amended): evaluating Not(A) via is_valid computes the position
test of Not(A) as exactly the position test of A (no negation), and only
the content test of Not(A) as the negation of the content test of A; the
overall is_valid of Not(A) is therefore A-position AND NOT A-content. -/
theorem c3_not_semantics (A : CellFilter) (area : Rect) (pos : Position) (cell : Cell) :
    CellPredicate.validPosition (CellPredicate.resolveArea area (.Not A)) pos (.Not A)
        = CellPredicate.validPosition (CellPredicate.resolveArea area A) pos A
    ∧ CellPredicate.isValidCell (CellPredicate.resolveArea area (.Not A)) cell (.Not A)
        = !(CellPredicate.isValidCell (CellPredicate.resolveArea area A) cell A)
    ∧ ((CellFilter.Not A).selector area).isValid pos cell
        = (CellPredicate.validPosition (CellPredicate.resolveArea area A) pos A
            && !(CellPredicate.isValidCell (CellPredicate.resolveArea area A) cell A)) :=
  ⟨rfl, rfl, rfl⟩

/-- C5: TemporaryEffect::done holds exactly when the outer duration timer
has elapsed or the wrapped inner effect reports done. -/
theorem c5_temporary_done {σ : Type} (ops : EffectOps σ) (t : TemporaryEffect σ) :
    TemporaryEffect.doneFlag ops t = true
      ↔ (t.duration.total ≤ t.duration.elapsed ∨ ops.doneFlag t.effect = true) := by
  simp [TemporaryEffect.doneFlag, EffectTimer.done]

/-- C7: Dissolve::execute is a pure function of the shader state, area
and buffer: on equal buffers it blanks the same set of cells and yields
equal output buffers, and it leaves the stored RNG state (and the whole
shader state) unchanged, the generator being copied by value per call. -/
theorem c7_dissolve_deterministic (d : Dissolve) (area : Rect) (b1 b2 : Buffer)
    (h : b1 = b2) :
    Dissolve.execute d area b1 = Dissolve.execute d area b2
    ∧ Dissolve.dissolvedPositions d area b1 = Dissolve.dissolvedPositions d area b2
    ∧ (Dissolve.execute d area b1).1 = d := by
  subst h
  exact ⟨rfl, rfl, rfl⟩

/-- C7 witness: the determinism theorem applied at a concrete dissolve
state and buffer. -/
theorem c7_dissolve_deterministic_witness :
    Dissolve.execute witnessDissolve ⟨0, 0, 2, 1⟩ witnessBuf
        = Dissolve.execute witnessDissolve ⟨0, 0, 2, 1⟩ witnessBuf
    ∧ Dissolve.dissolvedPositions witnessDissolve ⟨0, 0, 2, 1⟩ witnessBuf
        = Dissolve.dissolvedPositions witnessDissolve ⟨0, 0, 2, 1⟩ witnessBuf
    ∧ (Dissolve.execute witnessDissolve ⟨0, 0, 2, 1⟩ witnessBuf).1 = witnessDissolve :=
  c7_dissolve_deterministic witnessDissolve ⟨0, 0, 2, 1⟩ witnessBuf witnessBuf rfl

/-- C8: double negation is the identity on filters: is_valid under
Not(Not(A)) returns the same boolean as is_valid under A, for every
filter, root area, position and cell. -/
theorem c8_not_not_identity (A : CellFilter) (area : Rect) (pos : Position) (cell : Cell) :
    ((CellFilter.Not (CellFilter.Not A)).selector area).isValid pos cell
      = (A.selector area).isValid pos cell := by
  show (CellPredicate.validPosition (CellPredicate.resolveArea area A) pos A
        && !(!(CellPredicate.isValidCell (CellPredicate.resolveArea area A) cell A)))
      = (CellPredicate.validPosition (CellPredicate.resolveArea area A) pos A
        && CellPredicate.isValidCell (CellPredicate.resolveArea area A) cell A)
  rw [Bool.not_not]

/-- C9: the default Shader::reset panics (modelled as an error) when the
shader has no timer, and resets the timer, elapsed back to zero, when one
exists. -/
theorem c9_reset_default :
    Shader.resetDefault none = Except.error "Shader must implement reset()"
    ∧ ∀ t : EffectTimer, Shader.resetDefault (some t) = Except.ok { t with elapsed := 0 } :=
  ⟨rfl, fun _ => rfl⟩

/-- C10: TemporaryEffect::process forwards the entire delta to the inner
effect (against the inner effect area when set, the call area otherwise),
also on the call completing the outer timer, and returns exactly the
outer timer overflow, dropping the overflow of the inner effect. -/
theorem c10_temporary_process {σ : Type} (ops : EffectOps σ) (t : TemporaryEffect σ)
    (duration : Nat) (buf : Buffer) (area : Rect) :
    TemporaryEffect.process ops t duration buf area
      = ({ effect := (ops.process t.effect duration buf ((ops.area t.effect).getD area)).1,
           duration := (t.duration.process duration).1 },
         (ops.process t.effect duration buf ((ops.area t.effect).getD area)).2.1,
         (t.duration.process duration).2) := by
  rfl

/-- C6: in every successful blit, a skip-flagged source cell is never
copied: every destination cell either keeps its prior value or receives
the value of a non-skip source cell (first conjunct); and blitting with
offset (0,0) and a source region matching the destination size reproduces
the source exactly, except at skip-marked source cells, which keep the
prior destination value (second conjunct). -/
theorem c6_blit_skip :
    (∀ (src : Buffer) (src_region : Rect) (dst : Buffer) (offset : Offset) (p : Position),
        (blit_buffer_region src src_region dst offset).elim True (fun dst2 =>
          dst2.cells p = dst.cells p
          ∨ ∃ q, (src.cells q).skip = false ∧ dst2.cells p = src.cells q))
    ∧ (∀ (w h : Nat) (sc dc : Position → Cell),
        blit_buffer_region ⟨⟨0, 0, w, h⟩, sc⟩ ⟨0, 0, w, h⟩ ⟨⟨0, 0, w, h⟩, dc⟩ ⟨0, 0⟩
          = some ⟨⟨0, 0, w, h⟩, fun p =>
              if Rect.containsPos ⟨0, 0, w, h⟩ p && !(sc p).skip then sc p else dc p⟩) := by
  constructor
  · intro src src_region dst offset p
    unfold blit_buffer_region
    dsimp only
    cases hclip : ClipRegion.new (src_region.intersection src.area) dst.area offset with
    | none => exact trivial
    | some clip =>
        dsimp only
        by_cases hv : (!clip.isValidClip) = true
        · rw [if_pos hv]
          exact Or.inl rfl
        · rw [if_neg hv]
          cases hfold : clip.normalizedPositions.foldlM
              (fun b p => blitStep src clip b p) dst with
          | none => exact trivial
          | some b2 =>
              exact blit_fold_source src clip clip.normalizedPositions dst b2 hfold p
  · intro w h sc dc
    unfold blit_buffer_region
    dsimp only
    rw [inter_self_origin, clipRegion_new_id]
    dsimp only
    by_cases hwh : 0 < w * h
    · have hcond : ¬ ((!ClipRegion.isValidClip ⟨⟨0, 0, w, h⟩, ⟨0, 0, w, h⟩⟩) = true) := by
        simp [ClipRegion.isValidClip, Rect.rectArea]
        constructor
        · rintro rfl
          simp at hwh
        · rintro rfl
          simp at hwh
      rw [if_neg hcond]
      obtain ⟨b2, hfold, harea, hcells⟩ :=
        blit_fold_id ⟨⟨0, 0, w, h⟩, sc⟩ ⟨⟨0, 0, w, h⟩, ⟨0, 0, w, h⟩⟩
          (srcPos_id w h) (dstPos_id w h)
          (ClipRegion.normalizedPositions ⟨⟨0, 0, w, h⟩, ⟨0, 0, w, h⟩⟩)
          ⟨⟨0, 0, w, h⟩, dc⟩
          (by
            intro q hq
            have hm : q.x < w ∧ q.y < h := by
              have := hq
              rw [ClipRegion.normalizedPositions] at this
              exact mem_positionsList_origin.1 this
            exact ⟨containsPos_origin.2 hm, containsPos_origin.2 hm⟩)
      rw [hfold]
      congr 1
      cases b2 with
      | mk a2 c2 =>
          dsimp only at harea hcells
          rw [Buffer.mk.injEq]
          refine ⟨harea, ?_⟩
          funext p
          rw [hcells p]
          apply if_congr ?_ rfl rfl
          rw [ClipRegion.normalizedPositions]
          dsimp only
          rw [Bool.and_eq_true, Bool.not_eq_true']
          rw [mem_positionsList_origin, containsPos_origin]
    · have hcond : (!ClipRegion.isValidClip ⟨⟨0, 0, w, h⟩, ⟨0, 0, w, h⟩⟩) = true := by
        simp [ClipRegion.isValidClip, Rect.rectArea]
        exact Nat.mul_eq_zero.mp (Nat.eq_zero_of_not_pos hwh)
      rw [if_pos hcond]
      congr 1
      rw [Buffer.mk.injEq]
      refine ⟨rfl, ?_⟩
      funext p
      rw [if_neg]
      intro hcon
      rw [Bool.and_eq_true] at hcon
      obtain ⟨hin, _⟩ := hcon
      obtain ⟨hx, hy⟩ := containsPos_origin.1 hin
      exact hwh (Nat.mul_pos (Nat.pos_of_ne_zero (by omega)) (Nat.pos_of_ne_zero (by omega)))

/-- C4: blitting a 4x4 source region into an 8x8 destination at offset
x = -5 places the source fully outside the destination, yet the code
panics (u16 underflow computing dst.width - x_offset in ClipRegion::new)
instead of performing the documented no-op; the panic is the none result. -/
theorem c4_blit_fully_outside_panics :
    blit_buffer_region srcBuf4 ⟨0, 0, 4, 4⟩ dstBuf8 ⟨-5, 0⟩ = none := by
  rfl

end Tachyonfx
